import Mathlib

/-!
Verification of the SkillSphere booking and scheduling behavior.

The pricing and schedule definitions below are shallow embeddings of the
front-end code in `src/frontend/src/pages/booking/BookSessionPage.jsx` and
`src/frontend/src/pages/schedule/SchedulePage.jsx`.  JavaScript number
arithmetic at these magnitudes is modelled exactly over `ℚ`, and the
JavaScript `Math.round` (round half toward positive infinity) is modelled
by `jsRound`.  Components of the booking engine that exist only in the
design document (RecurrenceExpander, GroupSessionPool,
ReservationCoordinator) are modelled from the spec, as marked on each
definition.
-/

namespace SkillSphere

/-- JavaScript `Math.round`: rounds to the nearest integer, halves toward
positive infinity. -/
def jsRound (q : ℚ) : ℤ := ⌊q + 1/2⌋

/-- BookSessionPage.jsx line 383: `Math.round(selectedSession.price * 0.8)`,
the displayed per-person price of a group session. -/
def groupPerPersonPrice (price : ℚ) : ℤ := jsRound (price * (8/10))

/-- BookSessionPage.jsx lines 436 and 553:
`Math.round(selectedSession.price * recurringCount * 0.9)`, the displayed
total of a recurring package. -/
def packageTotalDisplayed (price : ℚ) (recurringCount : ℕ) : ℤ :=
  jsRound (price * recurringCount * (9/10))

/-- BookSessionPage.jsx line 577: the platform fee rendered as `$2`. -/
def platformFee : ℚ := 2

/-- BookSessionPage.jsx lines 551-557, the "Session fee" line of the payment
summary: recurring takes precedence over group, otherwise the raw price. -/
def sessionFee (price : ℚ) (isRecurring isGroupSession : Bool)
    (recurringCount : ℕ) : ℚ :=
  if isRecurring then (jsRound (price * recurringCount * (9/10)) : ℚ)
  else if isGroupSession then (jsRound (price * (8/10)) : ℚ)
  else price

/-- BookSessionPage.jsx lines 579-588, the "Total" line of the payment
summary: the session fee expression plus the flat `2`. -/
def paymentSummaryTotal (price : ℚ) (isRecurring isGroupSession : Bool)
    (recurringCount : ℕ) : ℚ :=
  (if isRecurring then (jsRound (price * recurringCount * (9/10)) : ℚ)
   else if isGroupSession then (jsRound (price * (8/10)) : ℚ)
   else price) + 2

/-- BookSessionPage.jsx lines 594-601, the amount on the "Confirm & Pay"
button: the session fee expression plus the flat `2`. -/
def confirmPayAmount (price : ℚ) (isRecurring isGroupSession : Bool)
    (recurringCount : ℕ) : ℚ :=
  (if isRecurring then (jsRound (price * recurringCount * (9/10)) : ℚ)
   else if isGroupSession then (jsRound (price * (8/10)) : ℚ)
   else price) + 2

/-- Written from the spec's words (§4.4 rule 1) for comparison with the
code: round half up to the currency's minor unit, cents. -/
def roundHalfUpToCents (q : ℚ) : ℚ := (⌊q * 100 + 1/2⌋ : ℚ) / 100

/-- Written from the spec's words: round half up to a whole currency unit,
phrased through the fractional part. -/
def roundHalfUpToUnit (q : ℚ) : ℚ :=
  if 1 ≤ 2 * Int.fract q then (⌊q⌋ : ℚ) + 1 else (⌊q⌋ : ℚ)

/-- Written from the claim's words for comparison with the code: a
group-and-recurring package total that applies the group discount per
occurrence first, then the recurring discount to the summed total. -/
def claimedGroupRecurringTotal (basePrice : ℚ) (occurrenceCount : ℕ) : ℤ :=
  jsRound ((jsRound (basePrice * (8/10)) : ℚ) * occurrenceCount * (9/10))

lemma jsRound_eq_roundHalfUpToUnit (q : ℚ) :
    (jsRound q : ℚ) = roundHalfUpToUnit q := by
  have hsplit : ⌊q + 1/2⌋ = ⌊q⌋ + ⌊Int.fract q + 1/2⌋ := by
    have hq : q + 1/2 = (⌊q⌋ : ℚ) + (Int.fract q + 1/2) := by
      have := Int.floor_add_fract q
      linarith
    rw [hq, Int.floor_int_add]
  have h0 : (0:ℚ) ≤ Int.fract q := Int.fract_nonneg q
  have h1 : Int.fract q < 1 := Int.fract_lt_one q
  unfold jsRound roundHalfUpToUnit
  by_cases hc : 1 ≤ 2 * Int.fract q
  · have : ⌊Int.fract q + 1/2⌋ = 1 := by
      rw [Int.floor_eq_iff]
      constructor
      · push_cast; linarith
      · push_cast; linarith
    rw [hsplit, this, if_pos hc]
    push_cast; ring
  · have : ⌊Int.fract q + 1/2⌋ = 0 := by
      rw [Int.floor_eq_iff]
      constructor
      · push_cast; linarith
      · push_cast; linarith [lt_of_not_le hc]
    rw [hsplit, this, if_neg hc]
    push_cast; ring

/-- C1: with basePrice 50, the group per-participant price is 40, the
4-occurrence recurring package total is 180, and each grand total adds the
flat platform fee of 2 (42 and 182). -/
theorem c1_pricing_determinism :
    groupPerPersonPrice 50 = 40 ∧
    packageTotalDisplayed 50 4 = 180 ∧
    paymentSummaryTotal 50 false true 4 = groupPerPersonPrice 50 + platformFee ∧
    paymentSummaryTotal 50 false true 4 = 42 ∧
    paymentSummaryTotal 50 true false 4 = packageTotalDisplayed 50 4 + platformFee ∧
    paymentSummaryTotal 50 true false 4 = 182 := by
  refine ⟨?_, ?_, ?_, ?_, ?_, ?_⟩ <;>
    norm_num [groupPerPersonPrice, packageTotalDisplayed, paymentSummaryTotal,
      platformFee, jsRound, Int.floor_eq_iff]

/-- C2 counterexample: at basePrice 50, occurrenceCount 4, with both flags
set, the code computes 180 while the claimed two-step formula
round(round(50 × 0.8) × 4 × 0.9) gives 144; the claim fails on the code. -/
theorem c2_group_recurring_counterexample :
    sessionFee 50 true true 4 = 180 ∧
    (claimedGroupRecurringTotal 50 4 : ℚ) = 144 ∧
    ¬ sessionFee 50 true true 4 = (claimedGroupRecurringTotal 50 4 : ℚ) := by
  refine ⟨?_, ?_, ?_⟩ <;>
    norm_num [sessionFee, claimedGroupRecurringTotal, jsRound]

/-- C2 amended: when both isGroup and isRecurring are set, the recurring
branch takes precedence: the session fee is round(basePrice ×
occurrenceCount × 0.9), identical to the fee with the group flag cleared —
the group discount is not applied at all. -/
theorem c2_group_recurring_precedence (price : ℚ) (count : ℕ) :
    sessionFee price true true count = (packageTotalDisplayed price count : ℚ) ∧
    sessionFee price true true count = sessionFee price true false count := by
  constructor <;> simp [sessionFee, packageTotalDisplayed]

/-- C3: for every price, flag combination and occurrence count, the grand
total equals the session-fee line plus the platform fee, and that fee is
the flat constant 2, independent of the booking options and added once. -/
theorem c3_grand_total_flat_fee (price : ℚ) (isRecurring isGroupSession : Bool)
    (recurringCount : ℕ) :
    paymentSummaryTotal price isRecurring isGroupSession recurringCount =
      sessionFee price isRecurring isGroupSession recurringCount + platformFee ∧
    platformFee = 2 := by
  exact ⟨rfl, rfl⟩

/-- C4 counterexample: at basePrice 37 the code computes
Math.round(37 × 0.8) = 30, while rounding 29.6 to the currency's minor
unit (cents) half-up gives 29.60; the claim fails on the code. -/
theorem c4_cents_rounding_counterexample :
    groupPerPersonPrice 37 = 30 ∧
    roundHalfUpToCents ((37 : ℚ) * (1 - 2/10)) = 148/5 ∧
    ¬ ((groupPerPersonPrice 37 : ℚ) = roundHalfUpToCents ((37 : ℚ) * (1 - 2/10))) := by
  refine ⟨?_, ?_, ?_⟩ <;>
    norm_num [groupPerPersonPrice, roundHalfUpToCents, jsRound, Int.floor_eq_iff]

/-- C4 amended: for every base price, the group per-participant price
equals basePrice × (1 − 0.20) rounded half-up to the nearest whole
currency unit (JavaScript Math.round), not to cents. -/
theorem c4_group_price_whole_unit (price : ℚ) :
    (groupPerPersonPrice price : ℚ) = roundHalfUpToUnit (price * (1 - 2/10)) := by
  have h : price * (8/10) = price * (1 - 2/10) := by ring
  unfold groupPerPersonPrice
  rw [h, jsRound_eq_roundHalfUpToUnit]

/-- C9: for every price and every combination of the recurring and group
options, the amount rendered on the "Confirm & Pay" button equals the
"Total" amount rendered in the payment summary. -/
theorem c9_totals_agree (price : ℚ) (isRecurring isGroupSession : Bool)
    (recurringCount : ℕ) :
    confirmPayAmount price isRecurring isGroupSession recurringCount =
      paymentSummaryTotal price isRecurring isGroupSession recurringCount := rfl

/-- A session record of SchedulePage.jsx (the mock-data shape: lines 39-116);
`participantName` stands for the role-dependent studentName/mentorName field
and `kind` for the record's `type` field. Time is modelled as an integer
timestamp. -/
structure Session where
  id : ℕ
  title : String
  participantName : String
  date : ℤ
  duration : ℕ
  kind : String
  status : String
  meetingLink : Option String
  notes : String
  price : ℚ
deriving DecidableEq

/-- SchedulePage.jsx lines 209-217, the confirmed branch of `cancelSession`:
map over the sessions, replacing the status of those whose id matches. -/
def cancelSession (sessions : List Session) (sessionId : ℕ) : List Session :=
  sessions.map (fun s =>
    if s.id = sessionId then { s with status := "cancelled" } else s)

/-- SchedulePage.jsx line 470: the Reschedule and Cancel buttons are
rendered only when the status is neither completed nor cancelled. -/
def rendersTransitionActions (s : Session) : Bool :=
  (!(s.status == "completed")) && (!(s.status == "cancelled"))

/-- A concrete session already in the terminal state "completed". -/
def demoCompletedSession : Session :=
  { id := 1, title := "JavaScript Fundamentals",
    participantName := "Dr. Sarah Martinez", date := 0, duration := 60,
    kind := "1-on-1 Mentoring", status := "completed", meetingLink := none,
    notes := "", price := 45 }

/-- C5 counterexample: invoking cancelSession on a session whose status is
already the terminal "completed" changes its state to "cancelled" — it
does not fail, no InvalidTransitionError exists in the code, and the state
is not left unchanged. -/
theorem c5_terminal_counterexample :
    (cancelSession [demoCompletedSession] 1).map Session.status = ["cancelled"] ∧
    ¬ (cancelSession [demoCompletedSession] 1).map Session.status = ["completed"] := by
  constructor
  · rfl
  · decide

/-- C5 amended: once a session's status is "completed" or "cancelled" the
UI no longer renders the Reschedule/Cancel actions; but `cancelSession`
itself performs no state check: invoked on such a session it still sets
the status to "cancelled", and no InvalidTransitionError is raised. -/
theorem c5_terminal_ui_guard_only (s : Session)
    (h : s.status = "completed" ∨ s.status = "cancelled") :
    rendersTransitionActions s = false ∧
    cancelSession [s] s.id = [{ s with status := "cancelled" }] := by
  constructor
  · rcases h with h | h <;> simp [rendersTransitionActions, h]
  · simp [cancelSession]

/-- C5 witness: the amended theorem applied to the concrete completed
session. -/
theorem c5_terminal_ui_guard_only_witness :
    rendersTransitionActions demoCompletedSession = false ∧
    cancelSession [demoCompletedSession] demoCompletedSession.id =
      [{ demoCompletedSession with status := "cancelled" }] :=
  c5_terminal_ui_guard_only demoCompletedSession (Or.inl rfl)

/-- C10: the confirmed branch of cancelSession preserves the list length
and, position by position, sets status to "cancelled" on exactly the
sessions whose id matches — whatever their current status — leaving every
other session equal and every other field of the matching sessions
unchanged. -/
theorem c10_cancelSession_frame (sessions : List Session) (sid : ℕ) :
    (cancelSession sessions sid).length = sessions.length ∧
    ∀ i s, sessions.get? i = some s →
      ∃ s', (cancelSession sessions sid).get? i = some s' ∧
        (s.id = sid → s'.status = "cancelled") ∧
        (¬ s.id = sid → s' = s) ∧
        s'.id = s.id ∧ s'.title = s.title ∧
        s'.participantName = s.participantName ∧ s'.date = s.date ∧
        s'.duration = s.duration ∧ s'.kind = s.kind ∧
        s'.meetingLink = s.meetingLink ∧ s'.notes = s.notes ∧
        s'.price = s.price := by
  constructor
  · simp [cancelSession]
  · intro i s hs
    refine ⟨if s.id = sid then { s with status := "cancelled" } else s, ?_, ?_, ?_, ?_⟩
    · have hg : sessions[i]? = some s := by
        rwa [List.get?_eq_getElem?] at hs
      simp [cancelSession, List.get?_eq_getElem?, List.getElem?_map, hg]
    · intro h; simp [h]
    · intro h; simp [h]
    · by_cases h : s.id = sid <;> simp [h]

/-- A second concrete session, not matching the cancelled id. -/
def demoPendingSession : Session :=
  { id := 2, title := "Portfolio Review", participantName := "Emma Thompson",
    date := 100, duration := 45, kind := "Portfolio Review",
    status := "pending", meetingLink := none,
    notes := "Bring portfolio mockups", price := 40 }

/-- C10 witness: the frame theorem applied to a concrete two-session list,
cancelling id 1. -/
theorem c10_cancelSession_frame_witness :
    (cancelSession [demoCompletedSession, demoPendingSession] 1).length = 2 ∧
    ∃ s', (cancelSession [demoCompletedSession, demoPendingSession] 1).get? 1 =
        some s' ∧ s' = demoPendingSession := by
  obtain ⟨hlen, hall⟩ :=
    c10_cancelSession_frame [demoCompletedSession, demoPendingSession] 1
  refine ⟨hlen, ?_⟩
  obtain ⟨s', hs', _, hne, _⟩ := hall 1 demoPendingSession rfl
  exact ⟨s', hs', hne (by decide)⟩

/-- Modelled from the spec: the repository has no GroupSessionPool — src/
only offers the group-size selector of BookSessionPage.jsx.  Per §3/§4.3 a
GroupSession tracks a capacity, a start time and the admitted participant
learner ids. -/
structure GroupSession where
  capacity : ℕ
  startTime : ℤ
  participants : List ℕ
deriving DecidableEq

inductive JoinError where
  | capacityExceeded
  | joinWindowClosed
deriving DecidableEq

/-- Modelled from the spec: §4.3 `tryJoin` — a session that has started is
closed to new joins, a full session rejects with CapacityExceededError,
otherwise the learner is admitted. -/
def tryJoin (now : ℤ) (g : GroupSession) (learnerId : ℕ) :
    Except JoinError GroupSession :=
  if g.startTime ≤ now then .error .joinWindowClosed
  else if g.capacity ≤ g.participants.length then .error .capacityExceeded
  else .ok { g with participants := learnerId :: g.participants }

/-- One atomic join attempt applied to the pool state: a rejected join
leaves the state unchanged. -/
def applyJoin (g : GroupSession) (req : ℤ × ℕ) : GroupSession :=
  match tryJoin req.1 g req.2 with
  | .ok g' => g'
  | .error _ => g

/-- A whole history of join attempts, in the order the atomic admissions
took effect (any interleaving of concurrent joins is some such order). -/
def runJoins (g : GroupSession) (reqs : List (ℤ × ℕ)) : GroupSession :=
  reqs.foldl applyJoin g

lemma applyJoin_capacity (g : GroupSession) (req : ℤ × ℕ) :
    (applyJoin g req).capacity = g.capacity := by
  unfold applyJoin tryJoin
  by_cases h1 : g.startTime ≤ req.1
  · simp [h1]
  · by_cases h2 : g.capacity ≤ g.participants.length <;> simp [h1, h2]

lemma applyJoin_length (g : GroupSession) (req : ℤ × ℕ)
    (h : g.participants.length ≤ g.capacity) :
    (applyJoin g req).participants.length ≤ (applyJoin g req).capacity := by
  unfold applyJoin tryJoin
  by_cases h1 : g.startTime ≤ req.1
  · simpa [h1] using h
  · by_cases h2 : g.capacity ≤ g.participants.length
    · simpa [h1, h2] using h
    · simp only [h1, h2, if_neg, if_false]
      simpa using Nat.succ_le_of_lt (Nat.lt_of_not_le h2)

/-- C6: for every group session whose participant list is within its
capacity, after every sequence of join attempts — concurrent joins being
some order of their atomic admissions — the capacity is unchanged and the
number of admitted participants still never exceeds it. -/
theorem c6_capacity_bound (g : GroupSession)
    (h : g.participants.length ≤ g.capacity) (reqs : List (ℤ × ℕ)) :
    (runJoins g reqs).capacity = g.capacity ∧
    (runJoins g reqs).participants.length ≤ g.capacity := by
  induction reqs generalizing g with
  | nil => exact ⟨rfl, h⟩
  | cons r rest ih =>
    have hcap := applyJoin_capacity g r
    have hlen := applyJoin_length g r h
    have := ih (applyJoin g r) (hcap ▸ hlen)
    exact ⟨by simpa [runJoins, hcap] using this.1,
           by simpa [runJoins, hcap] using this.2⟩

/-- C6 witness: a fresh two-seat session accepting three join attempts
before its start time ends with two participants, within capacity. -/
theorem c6_capacity_bound_witness :
    (runJoins ⟨2, 100, []⟩ [(0, 11), (0, 12), (0, 13)]).capacity = 2 ∧
    (runJoins ⟨2, 100, []⟩ [(0, 11), (0, 12), (0, 13)]).participants.length ≤ 2 :=
  c6_capacity_bound ⟨2, 100, []⟩ (by decide) [(0, 11), (0, 12), (0, 13)]

/-- Modelled from the spec: the repository has no ReservationCoordinator.
Per §4.5/§5 a 1:1 reservation targets a time window on one mentor's
calendar. -/
structure Window where
  start : ℤ
  stop : ℤ
deriving DecidableEq

/-- Two half-open windows overlap when each starts before the other ends. -/
def overlaps (w1 w2 : Window) : Bool :=
  decide (w1.start < w2.stop) && decide (w2.start < w1.stop)

inductive ResOutcome where
  | success
  | slotConflictError
deriving DecidableEq

/-- Modelled from the spec: §4.5 step 3 — atomic per-window admission on a
mentor's calendar: a window overlapping an existing reserved occurrence is
rejected with SlotConflictError, otherwise it is reserved. -/
def tryReserve (cal : List Window) (w : Window) : List Window × ResOutcome :=
  if cal.any (fun r => overlaps r w) then (cal, .slotConflictError)
  else (w :: cal, .success)

/-- All admission attempts in the order the atomic admissions took effect
(any interleaving of concurrent requests is some such order), returning
the final calendar and each request's outcome. -/
def runReservations (cal : List Window) (ws : List Window) :
    List Window × List ResOutcome :=
  match ws with
  | [] => (cal, [])
  | w :: rest =>
    let s1 := tryReserve cal w
    let s2 := runReservations s1.1 rest
    (s2.1, s1.2 :: s2.2)

lemma runReservations_all_conflict (cal : List Window) (ws : List Window)
    (h : ∀ w ∈ ws, ∃ r ∈ cal, overlaps r w = true) :
    runReservations cal ws = (cal, ws.map fun _ => ResOutcome.slotConflictError) := by
  induction ws with
  | nil => rfl
  | cons w rest ih =>
    have hw : cal.any (fun r => overlaps r w) = true := by
      obtain ⟨r, hr, ho⟩ := h w (List.mem_cons_self w rest)
      exact List.any_eq_true.mpr ⟨r, hr, ho⟩
    have hrest := ih (fun x hx => h x (List.mem_cons_of_mem w hx))
    simp [runReservations, tryReserve, hw, hrest]

/-- C8: among requests for pairwise-overlapping 1:1 windows on a mentor's
calendar that is initially free of conflicts for each of them — concurrent
requests being some order of their atomic admissions — exactly one request
succeeds: the first admitted one; every other request receives
SlotConflictError rather than being queued. -/
theorem c8_mutual_exclusion (cal0 : List Window) (w0 : Window)
    (ws : List Window)
    (hfree : ∀ w ∈ w0 :: ws, ∀ r ∈ cal0, overlaps r w = false)
    (hpair : (w0 :: ws).Pairwise (fun a b => overlaps a b = true)) :
    (runReservations cal0 (w0 :: ws)).2.head? = some ResOutcome.success ∧
    (∀ o ∈ (runReservations cal0 (w0 :: ws)).2.tail,
      o = ResOutcome.slotConflictError) ∧
    (runReservations cal0 (w0 :: ws)).2.count ResOutcome.success = 1 := by
  have h0 : cal0.any (fun r => overlaps r w0) = false := by
    rw [List.any_eq_false]
    intro r hr
    simp [hfree w0 (List.mem_cons_self w0 ws) r hr]
  have hover : ∀ w ∈ ws, overlaps w0 w = true :=
    (List.pairwise_cons.mp hpair).1
  have hrest := runReservations_all_conflict (w0 :: cal0) ws
    (fun w hw => ⟨w0, List.mem_cons_self w0 cal0, hover w hw⟩)
  have hrun : runReservations cal0 (w0 :: ws) =
      ((runReservations (w0 :: cal0) ws).1,
        ResOutcome.success :: (runReservations (w0 :: cal0) ws).2) := by
    simp [runReservations, tryReserve, h0]
  refine ⟨?_, ?_, ?_⟩
  · rw [hrun]; rfl
  · intro o ho
    rw [hrun] at ho
    simp only [List.tail_cons, hrest] at ho
    obtain ⟨a, -, ha⟩ := List.mem_map.mp ho
    exact ha.symm
  · rw [hrun]
    simp [hrest, List.count_cons, List.count_eq_zero]

/-- C8 witness: two overlapping requests on an empty calendar — the first
succeeds, the second gets SlotConflictError, one success in total. -/
theorem c8_mutual_exclusion_witness :
    (runReservations [] [⟨0, 10⟩, ⟨5, 15⟩]).2.head? = some ResOutcome.success ∧
    (∀ o ∈ (runReservations [] [⟨0, 10⟩, ⟨5, 15⟩]).2.tail,
      o = ResOutcome.slotConflictError) ∧
    (runReservations [] [⟨0, 10⟩, ⟨5, 15⟩]).2.count ResOutcome.success = 1 :=
  c8_mutual_exclusion [] ⟨0, 10⟩ [⟨5, 15⟩] (by decide) (by decide)

/-- Modelled from the spec: the repository has no RecurrenceExpander —
BookSessionPage.jsx only collects the frequency and count options.  A
calendar date, proleptic Gregorian. -/
structure Date where
  year : ℕ
  month : ℕ
  day : ℕ
deriving DecidableEq

def isLeapYear (y : ℕ) : Bool :=
  y % 4 == 0 && (y % 100 != 0 || y % 400 == 0)

def daysInMonth (y m : ℕ) : ℕ :=
  if m = 2 then (if isLeapYear y then 29 else 28)
  else if m = 4 ∨ m = 6 ∨ m = 9 ∨ m = 11 then 30
  else 31

/-- The calendar successor of a date. -/
def Date.nextDay (d : Date) : Date :=
  if d.day < daysInMonth d.year d.month then ⟨d.year, d.month, d.day + 1⟩
  else if d.month < 12 then ⟨d.year, d.month + 1, 1⟩
  else ⟨d.year + 1, 1, 1⟩

/-- Advancing a date by `n` calendar days. -/
def Date.addDays (d : Date) (n : ℕ) : Date := Date.nextDay^[n] d

/-- Modelled from the spec: §4.2 monthly step — same day-of-month in the
next month, clamped to that month's last day when the day does not
exist. -/
def Date.nextMonthClamped (d : Date) : Date :=
  if d.month = 12 then
    ⟨d.year + 1, 1, min d.day (daysInMonth (d.year + 1) 1)⟩
  else
    ⟨d.year, d.month + 1, min d.day (daysInMonth d.year (d.month + 1))⟩

inductive Frequency where
  | weekly
  | biweekly
  | monthly
deriving DecidableEq

/-- Modelled from the spec: §4.2 — one expansion step per frequency. -/
def freqStep : Frequency → Date → Date
  | .weekly, d => d.addDays 7
  | .biweekly, d => d.addDays 14
  | .monthly, d => d.nextMonthClamped

/-- Modelled from the spec: §4.2
`expand(anchorStart, frequency, count)` — the ordered list of count
candidate start dates, beginning at the anchor. -/
def expand (anchorStart : Date) (frequency : Frequency) (count : ℕ) :
    List Date :=
  match count with
  | 0 => []
  | n + 1 => anchorStart :: expand (freqStep frequency anchorStart) frequency n

/-- A well-formed calendar date. -/
def Date.Valid (d : Date) : Prop :=
  1 ≤ d.month ∧ d.month ≤ 12 ∧ 1 ≤ d.day ∧ d.day ≤ daysInMonth d.year d.month

instance (d : Date) : Decidable d.Valid := by
  unfold Date.Valid; infer_instance

/-- Lexicographic key ordering valid dates chronologically. -/
def dateKey (d : Date) : ℕ := d.year * 10000 + d.month * 100 + d.day

lemma daysInMonth_ge (y m : ℕ) : 28 ≤ daysInMonth y m := by
  unfold daysInMonth
  split_ifs <;> simp_all

lemma daysInMonth_le (y m : ℕ) : daysInMonth y m ≤ 31 := by
  unfold daysInMonth
  split_ifs <;> simp_all

lemma Date.nextDay_valid (d : Date) (h : d.Valid) : d.nextDay.Valid := by
  obtain ⟨hm1, hm2, hd1, hd2⟩ := h
  have hg1 := daysInMonth_ge d.year (d.month + 1)
  have hg2 := daysInMonth_ge (d.year + 1) 1
  unfold Date.nextDay Date.Valid
  split_ifs with h1 h2 <;> dsimp only <;> refine ⟨?_, ?_, ?_, ?_⟩ <;> omega

lemma Date.nextDay_key (d : Date) (h : d.Valid) :
    dateKey d < dateKey d.nextDay := by
  obtain ⟨hm1, hm2, hd1, hd2⟩ := h
  have h31 : d.day ≤ 31 := le_trans hd2 (daysInMonth_le _ _)
  unfold Date.nextDay
  split_ifs with h1 h2 <;> simp [dateKey] <;> omega

lemma Date.addDays_valid (n : ℕ) (d : Date) (h : d.Valid) :
    (d.addDays n).Valid := by
  induction n generalizing d with
  | zero => simpa [Date.addDays] using h
  | succ n ih =>
    have hstep : d.addDays (n + 1) = d.nextDay.addDays n := by
      simp [Date.addDays, Function.iterate_succ_apply]
    rw [hstep]
    exact ih d.nextDay (Date.nextDay_valid d h)

lemma Date.addDays_key (n : ℕ) (hn : 0 < n) (d : Date) (h : d.Valid) :
    dateKey d < dateKey (d.addDays n) := by
  induction n generalizing d with
  | zero => omega
  | succ n ih =>
    have hstep : d.addDays (n + 1) = d.nextDay.addDays n := by
      simp [Date.addDays, Function.iterate_succ_apply]
    rcases Nat.eq_zero_or_pos n with h0 | hpos
    · subst h0
      simpa [hstep, Date.addDays] using Date.nextDay_key d h
    · exact lt_trans (Date.nextDay_key d h)
        (hstep ▸ ih hpos d.nextDay (Date.nextDay_valid d h))

lemma Date.nextMonthClamped_valid (d : Date) (h : d.Valid) :
    d.nextMonthClamped.Valid := by
  obtain ⟨hm1, hm2, hd1, hd2⟩ := h
  have hg1 := daysInMonth_ge (d.year + 1) 1
  have hg2 := daysInMonth_ge d.year (d.month + 1)
  unfold Date.nextMonthClamped
  by_cases hm : d.month = 12
  · rw [if_pos hm]
    unfold Date.Valid
    dsimp only
    refine ⟨?_, ?_, ?_, ?_⟩ <;> omega
  · rw [if_neg hm]
    unfold Date.Valid
    dsimp only
    refine ⟨?_, ?_, ?_, ?_⟩ <;> omega

lemma Date.nextMonthClamped_key (d : Date) (h : d.Valid) :
    dateKey d < dateKey d.nextMonthClamped := by
  obtain ⟨hm1, hm2, hd1, hd2⟩ := h
  have h31 : d.day ≤ 31 := le_trans hd2 (daysInMonth_le _ _)
  unfold Date.nextMonthClamped
  by_cases hm : d.month = 12
  · rw [if_pos hm]
    have hdim := daysInMonth_ge (d.year + 1) 1
    simp only [dateKey]
    omega
  · rw [if_neg hm]
    have hdim := daysInMonth_ge d.year (d.month + 1)
    simp only [dateKey]
    omega

lemma freqStep_valid (f : Frequency) (d : Date) (h : d.Valid) :
    (freqStep f d).Valid := by
  cases f
  · exact Date.addDays_valid 7 d h
  · exact Date.addDays_valid 14 d h
  · exact Date.nextMonthClamped_valid d h

lemma freqStep_key (f : Frequency) (d : Date) (h : d.Valid) :
    dateKey d < dateKey (freqStep f d) := by
  cases f
  · exact Date.addDays_key 7 (by omega) d h
  · exact Date.addDays_key 14 (by omega) d h
  · exact Date.nextMonthClamped_key d h

lemma expand_length (a : Date) (f : Frequency) (n : ℕ) :
    (expand a f n).length = n := by
  induction n generalizing a with
  | zero => rfl
  | succ n ih => simp [expand, ih]

lemma expand_key_chain (f : Frequency) (n : ℕ) : ∀ (a : Date), a.Valid →
    List.Chain' (fun x y => dateKey x < dateKey y) (expand a f n) := by
  induction n with
  | zero => intro a _; simp [expand]
  | succ n ih =>
    intro a ha
    show List.Chain' _ (a :: expand (freqStep f a) f n)
    refine List.chain'_cons'.mpr ⟨?_, ih (freqStep f a) (freqStep_valid f a ha)⟩
    intro y hy
    cases n with
    | zero => simp [expand] at hy
    | succ m =>
      have hhead : (expand (freqStep f a) f (m + 1)).head? = some (freqStep f a) := rfl
      rw [hhead, Option.mem_some_iff] at hy
      rw [← hy]
      exact freqStep_key f a ha

lemma expand_step_chain (f : Frequency) (n : ℕ) : ∀ (a : Date),
    List.Chain' (fun x y => y = freqStep f x) (expand a f n) := by
  induction n with
  | zero => intro a; simp [expand]
  | succ n ih =>
    intro a
    show List.Chain' _ (a :: expand (freqStep f a) f n)
    refine List.chain'_cons'.mpr ⟨?_, ih (freqStep f a)⟩
    intro y hy
    cases n with
    | zero => simp [expand] at hy
    | succ m =>
      have hhead : (expand (freqStep f a) f (m + 1)).head? = some (freqStep f a) := rfl
      rw [hhead, Option.mem_some_iff] at hy
      exact hy.symm

lemma freqStep_description (f : Frequency) (x y : Date)
    (h : y = freqStep f x) :
    (f = Frequency.weekly → y = Date.nextDay^[7] x) ∧
    (f = Frequency.biweekly → y = Date.nextDay^[14] x) ∧
    (f = Frequency.monthly →
      y.year = (if x.month = 12 then x.year + 1 else x.year) ∧
      y.month = (if x.month = 12 then 1 else x.month + 1) ∧
      y.day = min x.day (daysInMonth y.year y.month)) := by
  subst h
  refine ⟨?_, ?_, ?_⟩ <;> intro hf <;> subst hf
  · rfl
  · rfl
  · unfold freqStep Date.nextMonthClamped
    by_cases hm : x.month = 12 <;> simp [hm]

/-- C7: for every valid anchor date, frequency and count, `expand` — a
pure Lean function, hence deterministic — returns exactly `count` start
dates, beginning at the anchor, strictly increasing chronologically, and
each consecutive step advances 7 days for weekly, 14 days for biweekly,
and for monthly moves to the next month keeping the day-of-month clamped
to that month's last day. -/
theorem c7_expand_contract (a : Date) (h : a.Valid) (f : Frequency) (n : ℕ) :
    (expand a f n).length = n ∧
    (0 < n → (expand a f n).head? = some a) ∧
    (expand a f n).Pairwise (fun x y => dateKey x < dateKey y) ∧
    List.Chain' (fun x y =>
      (f = Frequency.weekly → y = Date.nextDay^[7] x) ∧
      (f = Frequency.biweekly → y = Date.nextDay^[14] x) ∧
      (f = Frequency.monthly →
        y.year = (if x.month = 12 then x.year + 1 else x.year) ∧
        y.month = (if x.month = 12 then 1 else x.month + 1) ∧
        y.day = min x.day (daysInMonth y.year y.month))) (expand a f n) := by
  refine ⟨expand_length a f n, ?_, ?_, ?_⟩
  · intro hn
    cases n with
    | zero => omega
    | succ m => rfl
  · haveI : IsTrans Date (fun x y => dateKey x < dateKey y) :=
      ⟨fun _ _ _ h1 h2 => lt_trans h1 h2⟩
    exact List.chain'_iff_pairwise.mp (expand_key_chain f n a h)
  · exact (expand_step_chain f n a).imp
      (fun x y hxy => freqStep_description f x y hxy)

/-- C7 witness: the contract applied to the concrete valid anchor
2025-01-31 with monthly frequency and count 3. -/
theorem c7_expand_contract_witness :
    Date.Valid ⟨2025, 1, 31⟩ ∧
    (expand ⟨2025, 1, 31⟩ Frequency.monthly 3).length = 3 ∧
    (expand ⟨2025, 1, 31⟩ Frequency.monthly 3).head? = some ⟨2025, 1, 31⟩ :=
  ⟨by decide,
   (c7_expand_contract ⟨2025, 1, 31⟩ (by decide) Frequency.monthly 3).1,
   (c7_expand_contract ⟨2025, 1, 31⟩ (by decide) Frequency.monthly 3).2.1 (by omega)⟩

end SkillSphere
